import Mathlib

/-!
Verification of the `diff_func` expression algebra: a shallow embedding of
the symbolic single-variable function library (evaluation, differentiation,
expansion into a sum of terms, and textual rendering), together with proofs
of the specified properties.

The Rust library represents a function as an immutable tree of variants
(`SumFunction`, `DifferenceFunction`, `NegativeFunction`, `ProductFunction`,
`QuotientFunction`, `ComposedFunction`, and the leaf enum `UnaryFunction`),
each implementing `eval`, `diff` and `expand_vec`, plus `Display`.  We embed
the closed variant set as one inductive type and each trait method as a
recursive Lean function, with `f64` abstracted to the real numbers.
-/

namespace DiffFunc

/-- The leaf enum `UnaryFunction` of `lib.rs`: `Const(f64)`, `Id`, `Sin`,
`Cos`, `Exp`, `Log`.  The `f64` payload is abstracted to a real number. -/
inductive UnaryFunction where
  | Const (c : ℝ)
  | Id
  | Sin
  | Cos
  | Exp
  | Log

/-- The closed set of expression variants of `lib.rs`: each struct
implementing `FunctionTrait` becomes one constructor, with the same fields
in the same order (`ComposedFunction` stores `source` applied to `target`,
built by `ComposedFunction::new(source, target)`). -/
inductive Func where
  | SumFunction (left right : Func)
  | DifferenceFunction (left right : Func)
  | NegativeFunction (source : Func)
  | ProductFunction (left right : Func)
  | QuotientFunction (top bottom : Func)
  | ComposedFunction (source target : Func)
  | Unary (u : UnaryFunction)

/-- `FunctionOf::of` for `Function`: `f.of(g)` is `ComposedFunction::new(f, g)`,
i.e. `f` outer, `g` inner. -/
def Func.of (self other : Func) : Func := Func.ComposedFunction self other

/-- `FunctionAdd::add`: `SumFunction::new(self, other)`. -/
def Func.add (self other : Func) : Func := Func.SumFunction self other

/-- `FunctionSub::sub`: `DifferenceFunction::new(self, other)`. -/
def Func.sub (self other : Func) : Func := Func.DifferenceFunction self other

/-- `FunctionNeg::neg`: `NegativeFunction::new(self)`. -/
def Func.neg (self : Func) : Func := Func.NegativeFunction self

/-- `FunctionMul::mul`: `ProductFunction::new(self, other)`. -/
def Func.mul (self other : Func) : Func := Func.ProductFunction self other

/-- `FunctionDiv::div`: `QuotientFunction::new(self, other)`. -/
def Func.div (self other : Func) : Func := Func.QuotientFunction self other

/-- The `eval` method of each `FunctionTrait` impl in `lib.rs`, with `f64`
arithmetic abstracted to real arithmetic (`sin`/`cos`/`exp`/`ln` become
`Real.sin`/`Real.cos`/`Real.exp`/`Real.log`).  The source's recursive calls
go through an `evaluate` entry point whose definition is not under `src/`
(only its call sites are); per the spec it is the evaluation entry point,
so those calls are the recursion itself. -/
noncomputable def Func.eval : Func → ℝ → ℝ
  | .SumFunction l r, x => l.eval x + r.eval x
  | .DifferenceFunction l r, x => l.eval x - r.eval x
  | .NegativeFunction s, x => -(s.eval x)
  | .ProductFunction l r, x => l.eval x * r.eval x
  | .QuotientFunction t b, x => t.eval x / b.eval x
  | .ComposedFunction s t, x => s.eval (t.eval x)
  | .Unary (.Const c), _ => c
  | .Unary .Id, x => x
  | .Unary .Sin, x => Real.sin x
  | .Unary .Cos, x => Real.cos x
  | .Unary .Exp, x => Real.exp x
  | .Unary .Log, x => Real.log x

/-- Modelled from the spec: the `evaluate` entry point called throughout
`lib.rs` is missing from `src/` (only its callers appear there).  Spec §4.1
and §6 describe a single evaluation entry point taking one real input and
returning one real output, so `evaluate` is `eval`. -/
noncomputable def Func.evaluate (f : Func) (x : ℝ) : ℝ := f.eval x

/-- `UnaryFunction::diff` from `lib.rs`:  `Const(_) → Const(0.0)`,
`Id → Const(1.0)`, `Sin → Cos`, `Cos → Sin.neg()`, `Exp → Exp`,
`Log → Const(1.0).div(Id)`. -/
def UnaryFunction.diff : UnaryFunction → Func
  | .Const _ => .Unary (.Const 0)
  | .Id => .Unary (.Const 1)
  | .Sin => .Unary .Cos
  | .Cos => Func.neg (.Unary .Sin)
  | .Exp => .Unary .Exp
  | .Log => Func.div (.Unary (.Const 1)) (.Unary .Id)

/-- The `diff` method of each variant in `lib.rs`, rule for rule:
sum and difference differentiate childwise, negation differentiates the
source, product applies the product rule reusing the original operands,
quotient applies the quotient rule with the squared denominator, and
composition applies the chain rule. -/
def Func.diff : Func → Func
  | .SumFunction l r => (l.diff).add (r.diff)
  | .DifferenceFunction l r => (l.diff).sub (r.diff)
  | .NegativeFunction s => (s.diff).neg
  | .ProductFunction l r => ((l.diff).mul r).add ((r.diff).mul l)
  | .QuotientFunction t b => (((t.diff).mul b).sub ((b.diff).mul t)).div (b.mul b)
  | .ComposedFunction s t => ((s.diff).of t).mul (t.diff)
  | .Unary u => u.diff

/-- The `expand_vec` method of each variant in `lib.rs`: sum concatenates,
difference concatenates with the right-hand terms negated, negation and
composition and every leaf yield the singleton of the node itself, product
takes the full nested-loop cross product, and quotient maps each numerator
term over the shared unexpanded denominator. -/
def Func.expand_vec : Func → List Func
  | .SumFunction l r => l.expand_vec ++ r.expand_vec
  | .DifferenceFunction l r => l.expand_vec ++ (r.expand_vec).map Func.neg
  | .NegativeFunction s => [Func.neg s]
  | .ProductFunction l r =>
      (l.expand_vec).flatMap (fun lexp => (r.expand_vec).map (fun rexp => lexp.mul rexp))
  | .QuotientFunction t b => (t.expand_vec).map (fun texp => texp.div b)
  | .ComposedFunction s t => [s.of t]
  | .Unary u => [.Unary u]

/-- `SumFunction::from_many` from `lib.rs`: aborts on the empty list
(modelled as `none`), returns a single element unchanged, and otherwise
folds the list into right-nested `SumFunction` nodes. -/
def from_many : List Func → Option Func
  | [] => none
  | [single] => some single
  | [left, right] => some (left.add right)
  | left :: rest => (from_many rest).map (fun r => left.add r)

/-- `FunctionTrait::expand` from `lib.rs`:
`SumFunction::from_many(&self.expand_vec())`. -/
def Func.expand (f : Func) : Option Func := from_many f.expand_vec

/-- The points at which an expression is defined in the sense of the spec's
claims: no division by a zero-valued denominator and no logarithm of a
non-positive argument anywhere along the evaluation. -/
def DefinedAt : Func → ℝ → Prop
  | .SumFunction l r, x => DefinedAt l x ∧ DefinedAt r x
  | .DifferenceFunction l r, x => DefinedAt l x ∧ DefinedAt r x
  | .NegativeFunction s, x => DefinedAt s x
  | .ProductFunction l r, x => DefinedAt l x ∧ DefinedAt r x
  | .QuotientFunction t b, x => DefinedAt t x ∧ DefinedAt b x ∧ Func.eval b x ≠ 0
  | .ComposedFunction s t, x => DefinedAt t x ∧ DefinedAt s (Func.eval t x)
  | .Unary .Log, x => 0 < x
  | .Unary _, _ => True

/-- Rust's `str::replace` on character lists: replace every non-overlapping
occurrence of the (non-empty) pattern, scanning left to right. -/
def replaceFrom (pat rep : List Char) : List Char → List Char
  | [] => []
  | c :: rest =>
    if pat.isPrefixOf (c :: rest) && !pat.isEmpty then
      rep ++ replaceFrom pat rep (rest.drop (pat.length - 1))
    else
      c :: replaceFrom pat rep rest
termination_by l => l.length
decreasing_by
  all_goals simp only [List.length_drop, List.length_cons]
  all_goals omega

/-- `str::replace` lifted to strings (for the non-empty patterns the
library uses). -/
def strReplace (s pat rep : String) : String :=
  String.mk (replaceFrom pat.data rep.data s.data)

/-- The `fmt::Display` impl of each variant in `lib.rs`.  Binary variants
render parenthesized infix, negation renders a prefix minus, leaves render
their token wrapped in one outer parenthesis, and composition renders the
source's text with every occurrence of the placeholder `(x)` replaced by
the target's text.  The decimal formatting of a constant's `f64` payload is
the one float-specific piece, abstracted as the argument `cr`. -/
def Func.render (cr : ℝ → String) : Func → String
  | .Unary (.Const c) => "(" ++ cr c ++ ")"
  | .Unary .Id => "(x)"
  | .Unary .Sin => "(sin(x))"
  | .Unary .Cos => "(cos(x))"
  | .Unary .Exp => "(exp(x))"
  | .Unary .Log => "(ln(x))"
  | .NegativeFunction s => "-" ++ s.render cr
  | .SumFunction l r => "(" ++ l.render cr ++ " + " ++ r.render cr ++ ")"
  | .DifferenceFunction l r => "(" ++ l.render cr ++ " - " ++ r.render cr ++ ")"
  | .ProductFunction l r => "(" ++ l.render cr ++ " * " ++ r.render cr ++ ")"
  | .QuotientFunction t b => "(" ++ t.render cr ++ " / " ++ b.render cr ++ ")"
  | .ComposedFunction s t => strReplace (s.render cr) "(x)" (t.render cr)

@[simp] theorem eval_sum (l r : Func) (x : ℝ) :
    (Func.SumFunction l r).eval x = l.eval x + r.eval x := rfl

@[simp] theorem eval_difference (l r : Func) (x : ℝ) :
    (Func.DifferenceFunction l r).eval x = l.eval x - r.eval x := rfl

@[simp] theorem eval_negative (s : Func) (x : ℝ) :
    (Func.NegativeFunction s).eval x = -(s.eval x) := rfl

@[simp] theorem eval_product (l r : Func) (x : ℝ) :
    (Func.ProductFunction l r).eval x = l.eval x * r.eval x := rfl

@[simp] theorem eval_quotient (t b : Func) (x : ℝ) :
    (Func.QuotientFunction t b).eval x = t.eval x / b.eval x := rfl

@[simp] theorem eval_composed (s t : Func) (x : ℝ) :
    (Func.ComposedFunction s t).eval x = s.eval (t.eval x) := rfl

@[simp] theorem eval_const (c x : ℝ) : (Func.Unary (.Const c)).eval x = c := rfl

@[simp] theorem eval_id (x : ℝ) : (Func.Unary .Id).eval x = x := rfl

@[simp] theorem eval_sin (x : ℝ) : (Func.Unary .Sin).eval x = Real.sin x := rfl

@[simp] theorem eval_cos (x : ℝ) : (Func.Unary .Cos).eval x = Real.cos x := rfl

@[simp] theorem eval_exp (x : ℝ) : (Func.Unary .Exp).eval x = Real.exp x := rfl

@[simp] theorem eval_log (x : ℝ) : (Func.Unary .Log).eval x = Real.log x := rfl

/-- C2: `eval` is compositional, variant by variant, with the standard
real-analysis operator for each node: sums add, differences subtract,
products multiply, quotients divide top by bottom, composition evaluates
the target and feeds the result to the source, negation negates, and each
leaf returns its closed-form value.  `eval` is a total Lean function, so
out-of-domain points yield values rather than explicit failures (the
IEEE-754 special values of the `f64` original are abstracted by the total
real-valued semantics). -/
theorem C2_eval_compositional (f g : Func) (c x : ℝ) :
    Func.eval (Func.SumFunction f g) x = Func.eval f x + Func.eval g x
    ∧ Func.eval (Func.DifferenceFunction f g) x = Func.eval f x - Func.eval g x
    ∧ Func.eval (Func.ProductFunction f g) x = Func.eval f x * Func.eval g x
    ∧ Func.eval (Func.QuotientFunction f g) x = Func.eval f x / Func.eval g x
    ∧ Func.eval (Func.ComposedFunction f g) x = Func.eval f (Func.eval g x)
    ∧ Func.eval (Func.NegativeFunction f) x = -(Func.eval f x)
    ∧ Func.eval (Func.Unary (.Const c)) x = c
    ∧ Func.eval (Func.Unary .Id) x = x
    ∧ Func.eval (Func.Unary .Sin) x = Real.sin x
    ∧ Func.eval (Func.Unary .Cos) x = Real.cos x
    ∧ Func.eval (Func.Unary .Exp) x = Real.exp x
    ∧ Func.eval (Func.Unary .Log) x = Real.log x :=
  ⟨rfl, rfl, rfl, rfl, rfl, rfl, rfl, rfl, rfl, rfl, rfl, rfl⟩

/-- C3: differentiating `Product(f, g)` returns exactly
`Sum(Product(f.diff(), g), Product(g.diff(), f))`, with the original
operands reused in the cross terms. -/
theorem C3_product_rule_tree (f g : Func) :
    Func.diff (Func.ProductFunction f g)
      = Func.SumFunction (Func.ProductFunction (Func.diff f) g)
          (Func.ProductFunction (Func.diff g) f) := rfl

/-- C4: differentiating `Quotient(f, g)` returns exactly
`Quotient(Difference(Product(f.diff(), g), Product(g.diff(), f)), Product(g, g))`. -/
theorem C4_quotient_rule_tree (f g : Func) :
    Func.diff (Func.QuotientFunction f g)
      = Func.QuotientFunction
          (Func.DifferenceFunction (Func.ProductFunction (Func.diff f) g)
            (Func.ProductFunction (Func.diff g) f))
          (Func.ProductFunction g g) := rfl

/-- C7: `expand_vec` of `Quotient(top, bottom)` maps each term of `top`'s
term list to a quotient by the same unexpanded `bottom`; the denominator is
never expanded. -/
theorem C7_quotient_expands_numerator_only (top bottom : Func) :
    Func.expand_vec (Func.QuotientFunction top bottom)
      = (Func.expand_vec top).map (fun t => Func.QuotientFunction t bottom) := rfl

/-- C5: differentiating `f.of(g)` (composition, `f` outer) returns exactly
`Product(Composition(f.diff(), g), g.diff())`, and consequently its value
at any point where all parts are defined is the outer derivative at the
inner value times the inner derivative. -/
theorem C5_chain_rule (f g : Func) :
    Func.diff (Func.of f g)
      = Func.ProductFunction (Func.ComposedFunction (Func.diff f) g) (Func.diff g)
    ∧ ∀ x : ℝ, DefinedAt (Func.diff (Func.of f g)) x →
        Func.evaluate (Func.diff (Func.of f g)) x
          = Func.evaluate (Func.diff f) (Func.evaluate g x)
              * Func.evaluate (Func.diff g) x :=
  ⟨rfl, fun _ _ => rfl⟩

/-- C5 witness: the chain rule theorem applied to `Sin.of(Id)` at `x = 0`,
where every part is defined. -/
theorem C5_chain_rule_witness :
    Func.diff (Func.of (Func.Unary .Sin) (Func.Unary .Id))
      = Func.ProductFunction
          (Func.ComposedFunction (Func.diff (Func.Unary .Sin)) (Func.Unary .Id))
          (Func.diff (Func.Unary .Id))
    ∧ Func.evaluate (Func.diff (Func.of (Func.Unary .Sin) (Func.Unary .Id))) 0
        = Func.evaluate (Func.diff (Func.Unary .Sin))
            (Func.evaluate (Func.Unary .Id) 0)
            * Func.evaluate (Func.diff (Func.Unary .Id)) 0 :=
  ⟨(C5_chain_rule (Func.Unary .Sin) (Func.Unary .Id)).1,
    (C5_chain_rule (Func.Unary .Sin) (Func.Unary .Id)).2 0
      ⟨⟨trivial, trivial⟩, trivial⟩⟩

theorem length_cross_product (l r : List Func) :
    (l.flatMap (fun a => r.map (fun b => Func.mul a b))).length
      = l.length * r.length := by
  induction l with
  | nil => simp
  | cons a l ih => simp [ih]; ring

/-- C6: the term list of `Product(f, g)` is the full ordered cross product
of the two children's term lists (left terms outer, right terms inner),
with `m * n` terms. -/
theorem C6_product_cross_product (f g : Func) :
    Func.expand_vec (Func.ProductFunction f g)
      = (Func.expand_vec f).flatMap
          (fun lt => (Func.expand_vec g).map (fun rt => Func.ProductFunction lt rt))
    ∧ (Func.expand_vec (Func.ProductFunction f g)).length
        = (Func.expand_vec f).length * (Func.expand_vec g).length :=
  ⟨rfl, length_cross_product _ _⟩

/-- C9: rendering follows the fully parenthesized per-variant patterns, and
composition renders by substituting the target's rendering for every
occurrence of the exact delimited placeholder `(x)` in the source's
rendering, a purely textual operation (`cr` abstracts the decimal
formatting of a constant's value). -/
theorem C9_render_patterns (cr : ℝ → String) (f g : Func) (c : ℝ) :
    Func.render cr (Func.SumFunction f g)
        = "(" ++ Func.render cr f ++ " + " ++ Func.render cr g ++ ")"
    ∧ Func.render cr (Func.DifferenceFunction f g)
        = "(" ++ Func.render cr f ++ " - " ++ Func.render cr g ++ ")"
    ∧ Func.render cr (Func.ProductFunction f g)
        = "(" ++ Func.render cr f ++ " * " ++ Func.render cr g ++ ")"
    ∧ Func.render cr (Func.QuotientFunction f g)
        = "(" ++ Func.render cr f ++ " / " ++ Func.render cr g ++ ")"
    ∧ Func.render cr (Func.NegativeFunction f) = "-" ++ Func.render cr f
    ∧ Func.render cr (Func.Unary (.Const c)) = "(" ++ cr c ++ ")"
    ∧ Func.render cr (Func.Unary .Id) = "(x)"
    ∧ Func.render cr (Func.Unary .Sin) = "(sin(x))"
    ∧ Func.render cr (Func.Unary .Cos) = "(cos(x))"
    ∧ Func.render cr (Func.Unary .Exp) = "(exp(x))"
    ∧ Func.render cr (Func.Unary .Log) = "(ln(x))"
    ∧ Func.render cr (Func.ComposedFunction f g)
        = strReplace (Func.render cr f) "(x)" (Func.render cr g) :=
  ⟨rfl, rfl, rfl, rfl, rfl, rfl, rfl, rfl, rfl, rfl, rfl, rfl⟩

/-- The sum of the values of a list of terms at a point: the quantity that
expansion must preserve. -/
noncomputable def evalSum (l : List Func) (x : ℝ) : ℝ :=
  (l.map (fun t => Func.eval t x)).sum

theorem evalSum_nil (x : ℝ) : evalSum [] x = 0 := rfl

theorem evalSum_cons (a : Func) (l : List Func) (x : ℝ) :
    evalSum (a :: l) x = a.eval x + evalSum l x := by
  simp [evalSum]

theorem evalSum_append (l r : List Func) (x : ℝ) :
    evalSum (l ++ r) x = evalSum l x + evalSum r x := by
  simp [evalSum]

theorem evalSum_map_neg (l : List Func) (x : ℝ) :
    evalSum (l.map Func.neg) x = -(evalSum l x) := by
  induction l with
  | nil => simp [evalSum]
  | cons a l ih =>
    rw [List.map_cons, evalSum_cons, evalSum_cons, ih]
    show -(a.eval x) + -(evalSum l x) = _
    ring

theorem evalSum_map_mul (a : Func) (r : List Func) (x : ℝ) :
    evalSum (r.map (fun b => Func.mul a b)) x = a.eval x * evalSum r x := by
  induction r with
  | nil => simp [evalSum]
  | cons b r ih =>
    rw [List.map_cons, evalSum_cons, evalSum_cons, ih]
    show a.eval x * b.eval x + _ = _
    ring

theorem evalSum_cross (l r : List Func) (x : ℝ) :
    evalSum (l.flatMap (fun a => r.map (fun b => Func.mul a b))) x
      = evalSum l x * evalSum r x := by
  induction l with
  | nil => simp [evalSum]
  | cons a l ih =>
    rw [List.flatMap_cons, evalSum_append, evalSum_map_mul, ih, evalSum_cons]
    ring

theorem evalSum_map_div (l : List Func) (b : Func) (x : ℝ) :
    evalSum (l.map (fun t => Func.div t b)) x = evalSum l x / b.eval x := by
  induction l with
  | nil => simp [evalSum]
  | cons a l ih =>
    rw [List.map_cons, evalSum_cons, evalSum_cons, ih]
    show a.eval x / b.eval x + _ = _
    rw [add_div]

theorem sum_expand_vec_eval (e : Func) (x : ℝ) :
    evalSum (e.expand_vec) x = e.eval x := by
  induction e with
  | SumFunction l r ihl ihr =>
    simp only [Func.expand_vec]
    rw [evalSum_append, ihl, ihr]
    rfl
  | DifferenceFunction l r ihl ihr =>
    simp only [Func.expand_vec]
    rw [evalSum_append, evalSum_map_neg, ihl, ihr]
    show _ = l.eval x - r.eval x
    ring
  | NegativeFunction s _ =>
    rw [show (Func.NegativeFunction s).expand_vec = [Func.neg s] from rfl,
      evalSum_cons, evalSum_nil]
    show -(s.eval x) + 0 = -(s.eval x)
    ring
  | ProductFunction l r ihl ihr =>
    simp only [Func.expand_vec]
    rw [evalSum_cross, ihl, ihr]
    rfl
  | QuotientFunction t b iht _ =>
    simp only [Func.expand_vec]
    rw [evalSum_map_div, iht]
    rfl
  | ComposedFunction s t _ _ =>
    rw [show (Func.ComposedFunction s t).expand_vec = [Func.of s t] from rfl,
      evalSum_cons, evalSum_nil]
    show s.eval (t.eval x) + 0 = s.eval (t.eval x)
    ring
  | Unary u =>
    rw [show (Func.Unary u).expand_vec = [Func.Unary u] from rfl,
      evalSum_cons, evalSum_nil, add_zero]

theorem from_many_eval : ∀ (l : List Func) (f : Func), from_many l = some f →
    ∀ x : ℝ, Func.eval f x = evalSum l x
  | [], _, h => by simp [from_many] at h
  | [a], f, h => by
    simp [from_many] at h
    subst h
    intro x
    rw [evalSum_cons, evalSum_nil, add_zero]
  | [a, b], f, h => by
    simp [from_many] at h
    subst h
    intro x
    rw [evalSum_cons, evalSum_cons, evalSum_nil, add_zero]
    rfl
  | a :: b :: c :: rest, f, h => by
    intro x
    simp only [from_many] at h
    cases hm : from_many (b :: c :: rest) with
    | none => rw [hm] at h; simp at h
    | some r =>
      rw [hm] at h
      simp only [Option.map_some', Option.some.injEq] at h
      subst h
      have ih := from_many_eval (b :: c :: rest) r hm x
      rw [evalSum_cons, ← ih]
      rfl

/-- C1: expansion preserves the evaluated value: wherever `e` is defined,
the expression rebuilt by `expand()` evaluates to the same value as `e`. -/
theorem C1_expand_preserves_eval (e f : Func) (x : ℝ)
    (_hdef : DefinedAt e x) (hexp : e.expand = some f) :
    f.eval x = e.eval x := by
  rw [from_many_eval (e.expand_vec) f hexp x, sum_expand_vec_eval]

/-- C1 witness: the preservation theorem applied to
`(Id + Id) / Const(2)` at `x = 1`, where the expression is defined. -/
theorem C1_expand_preserves_eval_witness :
    Func.eval
        (Func.SumFunction
          (Func.QuotientFunction (Func.Unary .Id) (Func.Unary (.Const 2)))
          (Func.QuotientFunction (Func.Unary .Id) (Func.Unary (.Const 2)))) 1
      = Func.eval
          (Func.QuotientFunction
            (Func.SumFunction (Func.Unary .Id) (Func.Unary .Id))
            (Func.Unary (.Const 2))) 1 :=
  C1_expand_preserves_eval _ _ 1
    ⟨⟨trivial, trivial⟩, trivial, by norm_num⟩ rfl

theorem from_many_none_iff : ∀ l : List Func, from_many l = none ↔ l = []
  | [] => by simp [from_many]
  | [a] => by simp [from_many]
  | [a, b] => by simp [from_many]
  | a :: b :: c :: rest => by
    simp only [from_many, Option.map_eq_none']
    simp [from_many_none_iff (b :: c :: rest)]

theorem expand_vec_length_pos : ∀ e : Func, 0 < (Func.expand_vec e).length
  | .SumFunction l r => by
    have := expand_vec_length_pos l
    simp [Func.expand_vec]
    omega
  | .DifferenceFunction l r => by
    have := expand_vec_length_pos l
    simp [Func.expand_vec]
    omega
  | .NegativeFunction s => by simp [Func.expand_vec]
  | .ProductFunction l r => by
    have hl := expand_vec_length_pos l
    have hr := expand_vec_length_pos r
    simp only [Func.expand_vec, length_cross_product]
    exact Nat.mul_pos hl hr
  | .QuotientFunction t b => by
    have := expand_vec_length_pos t
    simp [Func.expand_vec]
    omega
  | .ComposedFunction s t => by simp [Func.expand_vec]
  | .Unary u => by simp [Func.expand_vec]

/-- C8: `from_many` (the reduction behind `expand()`) aborts exactly on an
empty term sequence, and for every expression of the defined variant set
`expand_terms()` is non-empty, so `expand()` always succeeds: the error
branch is unreachable from the defined variants. -/
theorem C8_empty_terms_unreachable :
    (∀ l : List Func, from_many l = none ↔ l = [])
    ∧ ∀ e : Func, 0 < (Func.expand_vec e).length ∧ (Func.expand e).isSome = true := by
  refine ⟨from_many_none_iff, fun e => ⟨expand_vec_length_pos e, ?_⟩⟩
  rw [Option.isSome_iff_ne_none]
  intro hn
  have := (from_many_none_iff (Func.expand_vec e)).mp hn
  have hpos := expand_vec_length_pos e
  rw [this] at hpos
  simp at hpos

theorem expand_vec_fixed : ∀ e : Func, ∀ t ∈ e.expand_vec, t.expand_vec = [t]
  | .SumFunction l r => by
    intro t ht
    simp only [Func.expand_vec, List.mem_append] at ht
    rcases ht with h | h
    · exact expand_vec_fixed l t h
    · exact expand_vec_fixed r t h
  | .DifferenceFunction l r => by
    intro t ht
    simp only [Func.expand_vec, List.mem_append, List.mem_map] at ht
    rcases ht with h | ⟨u, _, rfl⟩
    · exact expand_vec_fixed l t h
    · rfl
  | .NegativeFunction s => by
    intro t ht
    simp only [Func.expand_vec, List.mem_singleton] at ht
    subst ht
    rfl
  | .ProductFunction l r => by
    intro t ht
    simp only [Func.expand_vec, List.mem_flatMap, List.mem_map] at ht
    obtain ⟨a, ha, u, hu, rfl⟩ := ht
    have ha' := expand_vec_fixed l a ha
    have hu' := expand_vec_fixed r u hu
    show Func.expand_vec (Func.ProductFunction a u) = _
    simp only [Func.expand_vec]
    rw [ha', hu']
    rfl
  | .QuotientFunction t b => by
    intro u hu
    simp only [Func.expand_vec, List.mem_map] at hu
    obtain ⟨a, ha, rfl⟩ := hu
    have ha' := expand_vec_fixed t a ha
    show Func.expand_vec (Func.QuotientFunction a b) = _
    simp only [Func.expand_vec]
    rw [ha']
    rfl
  | .ComposedFunction s t => by
    intro u hu
    simp only [Func.expand_vec, List.mem_singleton] at hu
    subst hu
    rfl
  | .Unary u => by
    intro t ht
    simp only [Func.expand_vec, List.mem_singleton] at ht
    subst ht
    rfl

theorem from_many_expand_vec : ∀ (l : List Func) (f : Func),
    (∀ t ∈ l, t.expand_vec = [t]) → from_many l = some f → f.expand_vec = l
  | [], _, _, h => by simp [from_many] at h
  | [a], f, hfix, h => by
    simp [from_many] at h
    subst h
    exact hfix a (by simp)
  | [a, b], f, hfix, h => by
    simp [from_many] at h
    subst h
    show Func.expand_vec (Func.SumFunction a b) = [a, b]
    simp only [Func.expand_vec]
    rw [hfix a (by simp), hfix b (by simp)]
    rfl
  | a :: b :: c :: rest, f, hfix, h => by
    simp only [from_many] at h
    cases hm : from_many (b :: c :: rest) with
    | none => rw [hm] at h; simp at h
    | some r =>
      rw [hm] at h
      simp only [Option.map_some', Option.some.injEq] at h
      subst h
      have ih := from_many_expand_vec (b :: c :: rest) r
        (fun t ht => hfix t (List.mem_cons_of_mem a ht)) hm
      show Func.expand_vec (Func.SumFunction a r) = a :: b :: c :: rest
      simp only [Func.expand_vec]
      rw [hfix a (by simp), ih]
      rfl

/-- C10: expansion is structurally idempotent: the tree rebuilt by
`expand()` has the same term list as the original expression (every term
produced by `expand_vec` is a fixed point of `expand_vec`), so expanding
again reproduces the same tree. -/
theorem C10_expand_idempotent (e f : Func) (h : e.expand = some f) :
    f.expand_vec = e.expand_vec ∧ f.expand = some f := by
  have h1 : f.expand_vec = e.expand_vec :=
    from_many_expand_vec _ f (expand_vec_fixed e) h
  refine ⟨h1, ?_⟩
  rw [Func.expand, h1]
  exact h

/-- C10 witness: the idempotence theorem applied to `(Id + Id) * Id`, whose
expansion is `Id*Id + Id*Id`. -/
theorem C10_expand_idempotent_witness :
    Func.expand_vec
        (Func.SumFunction
          (Func.ProductFunction (Func.Unary .Id) (Func.Unary .Id))
          (Func.ProductFunction (Func.Unary .Id) (Func.Unary .Id)))
      = Func.expand_vec
          (Func.ProductFunction
            (Func.SumFunction (Func.Unary .Id) (Func.Unary .Id))
            (Func.Unary .Id))
    ∧ Func.expand
        (Func.SumFunction
          (Func.ProductFunction (Func.Unary .Id) (Func.Unary .Id))
          (Func.ProductFunction (Func.Unary .Id) (Func.Unary .Id)))
      = some
          (Func.SumFunction
            (Func.ProductFunction (Func.Unary .Id) (Func.Unary .Id))
            (Func.ProductFunction (Func.Unary .Id) (Func.Unary .Id))) :=
  C10_expand_idempotent _ _ rfl

end DiffFunc
